import Mathlib

/-!
# Verification of the dual isosurface lookup-table engine (`ijkdualtable.h`)

Shallow embedding of the configuration-table engine of this repository.
The header `src/ijkdualtable.h` contains the class interfaces together with
inline definitions of `compute_complement`, the accessors, and the
`ISODUAL_CUBE_FACE_INFO` member functions; those are translated here
directly from the source.  The out-of-line member bodies
(`CreateTableEntries`, the `FIND_COMPONENT` searches, `is_cube_ambiguous`,
table allocation / dimension checking) and the hypercube geometry service
(`ijkcube.txx`) are not part of the excerpt, so they are modelled from the
specification, as marked in the individual doc comments.

Conventions: machine integers are modelled as `Nat` (all quantities in the
claims stay in range, no overflow occurs on the quantified domains);
a table index `it` encodes the sign configuration, bit `v` of `it` being
the sign of cube vertex `v`; cube vertex `v < 2^d` has coordinates given
by the binary digits of `v`, two vertices being joined by a cube edge when
they differ in exactly one binary digit, so an edge is represented by the
pair `(iv, k)` of its lower endpoint `iv` (with bit `k` clear) and its
direction `k`; its endpoints are `iv` and `iv ^^^ 2^k`.
-/

namespace IJKDUALTABLE

/-- From `src/ijkdualtable.h` (`compute_complement`):
`return(num_table_entries-1-ival);`.  All uses keep
`ival < num_table_entries`, so natural subtraction agrees with the C++
signed arithmetic on the domain of interest. -/
def compute_complement (ival num_table_entries : ℕ) : ℕ :=
  num_table_entries - 1 - ival

/-- Modelled from the spec: `ISODUAL_TABLE::IsPositive` (declared in
`src/ijkdualtable.h`, body not in the excerpt); the spec defines it as
"`isPositive(it, v)` (bit test of vertex v in it)". -/
def IsPositive (it v : ℕ) : Bool :=
  it.testBit v

/-- Number of table entries for a `d`-dimensional cube: `2^(2^d)`
(one bit per cube vertex, `2^d` cube vertices). -/
def numTableEntries (d : ℕ) : ℕ :=
  2 ^ (2 ^ d)

/-- An edge of the `d`-cube, given as (lower endpoint, direction): `iv`
is a cube vertex whose bit `k` is clear, and the edge joins `iv` to
`iv ^^^ 2^k`. -/
def isEdge (d iv k : ℕ) : Prop :=
  iv < 2 ^ d ∧ k < d ∧ iv.testBit k = false

/-- Second endpoint of edge `(iv, k)`. -/
def edgeEndpoint1 (iv k : ℕ) : ℕ :=
  iv ^^^ 2 ^ k

/-- The edges of the `d`-cube, enumerated as (lower endpoint, direction)
pairs. -/
def edgesList (d : ℕ) : List (ℕ × ℕ) :=
  (List.range d).flatMap (fun k =>
    ((List.range (2 ^ d)).filter (fun iv => !iv.testBit k)).map (fun iv => (iv, k)))

/-!
## Cube facet geometry and `ISODUAL_CUBE_FACE_INFO`
-/

/-- Modelled from the spec: the Geometry Service's `facetVertices(f)`
(`IJK::CUBE_FACE_INFO` of `ijkcube.txx`, not in the excerpt) for a
`d`-dimensional hypercube.  Facet `f` (for `f < 2d`) is orthogonal to
axis `f % d`; facets `0..d-1` lie on the side with coordinate `0`,
facets `d..2d-1` on the side with coordinate `1`.  Vertex `v`'s
coordinate along axis `k` is bit `k` of `v`. -/
def facetVertices (d f : ℕ) : List ℕ :=
  (List.range (2 ^ d)).filter (fun v => v.testBit (f % d) == decide (d ≤ f))

/-- Number of facets of the `d`-cube (`NumFacets`): `2 * d`. -/
def NumCubeFacets (d : ℕ) : ℕ := 2 * d

/-- From `src/ijkdualtable.h`
(`ISODUAL_CUBE_FACE_INFO::ComputeNumCubeFacetBits`): loops over the
vertices of facet `ifacet`, incrementing `num_zeros` when
`((1 << jv) & ientry) == 0` and `num_ones` otherwise.  Returned as the
pair `(num_zeros, num_ones)`. -/
def ComputeNumCubeFacetBits (d ientry f : ℕ) : ℕ × ℕ :=
  (facetVertices d f).foldl
    (fun p jv => if (1 <<< jv) &&& ientry == 0 then (p.1 + 1, p.2) else (p.1, p.2 + 1))
    (0, 0)

/-- From `src/ijkdualtable.h` (`ISODUAL_CUBE_FACE_INFO::IsCubeFacetActive`):
true when `num_zeros > 0 && num_ones > 0`. -/
def IsCubeFacetActive (d ientry f : ℕ) : Bool :=
  decide (0 < (ComputeNumCubeFacetBits d ientry f).1) &&
    decide (0 < (ComputeNumCubeFacetBits d ientry f).2)

/-- From `src/ijkdualtable.h`
(`ISODUAL_CUBE_FACE_INFO::ComputeNumActiveCubeFacets`): counts the facets
`ifacet < NumFacets()` with `IsCubeFacetActive(ientry, ifacet)`. -/
def ComputeNumActiveCubeFacets (d ientry : ℕ) : ℕ :=
  (List.range (NumCubeFacets d)).foldl
    (fun cnt f => if IsCubeFacetActive d ientry f then cnt + 1 else cnt) 0

/-!
## Connected components of same-sign vertices (`FIND_COMPONENT`)
-/

/-- Cube-edge adjacency: `u` and `v` are cube vertices differing in
exactly one of the `d` coordinate bits. -/
def cubeAdj (d u v : ℕ) : Bool :=
  decide (u < 2 ^ d) && decide (v < 2 ^ d) &&
    (List.range d).any (fun k => u ^^^ v == 2 ^ k)

/-- One round of flood-fill expansion: adjoin every vertex `w` satisfying
`ok` that is adjacent to the current set. -/
def expand (d : ℕ) (ok : ℕ → Bool) (s : Finset ℕ) : Finset ℕ :=
  s ∪ (Finset.range (2 ^ d)).filter
    (fun w => ok w = true ∧ ∃ u ∈ s, cubeAdj d u w = true)

/-- Vertices reached by flood fill from `i` moving only onto vertices
satisfying `ok` (`2^d + 1` rounds always suffice to stabilise). -/
def reachSet (d : ℕ) (ok : ℕ → Bool) (i : ℕ) : Finset ℕ :=
  (expand d ok)^[2 ^ d + 1] {i}

/-- Reachability from `i` along cube edges through vertices satisfying
`ok` (the start vertex is not constrained). -/
def Reach (d : ℕ) (ok : ℕ → Bool) (i v : ℕ) : Prop :=
  Relation.ReflTransGen (fun u w => cubeAdj d u w = true ∧ ok w = true) i v

/-- Modelled from the spec: the vertex flags set by
`FIND_COMPONENT::SetVertexFlags` (flag of vertex `v` is bit `v` of the
configuration) followed, for the negative class, by
`FIND_COMPONENT::NegateVertexFlags`; only the `2^d` cube vertices carry
flags. -/
def vertexFlag (d ientry : ℕ) (flag_positive : Bool) (v : ℕ) : Bool :=
  decide (v < 2 ^ d) && (ientry.testBit v == flag_positive)

/-- Modelled from the spec: `FIND_COMPONENT::Search(i, icomp)`
"flood-fills from vertex i over polytope edges, visiting only flagged,
unvisited vertices, assigning them component id icomp". -/
def Search (d : ℕ) (flag : ℕ → Bool) (comp : ℕ → ℕ) (i icomp : ℕ) : ℕ → ℕ :=
  fun v =>
    if v ∈ reachSet d (fun w => flag w && (comp w == 0)) i then icomp else comp v

/-- Modelled from the spec: the scan loop of
`FIND_COMPONENT::ComputeNumComponents`: "repeatedly selects an unvisited
flagged vertex and runs search with an incrementing id until every
flagged vertex is assigned; returns the final id count".  The scan visits
the vertices in index order; the result is the final `component[]` map
together with the number of search calls made. -/
def assignComponents (d : ℕ) (flag : ℕ → Bool) :
    List ℕ → (ℕ → ℕ) → ℕ → (ℕ → ℕ) × ℕ
  | [], comp, icomp => (comp, icomp)
  | v :: rest, comp, icomp =>
    if flag v && (comp v == 0) then
      assignComponents d flag rest (Search d flag comp v (icomp + 1)) (icomp + 1)
    else
      assignComponents d flag rest comp icomp

/-- Modelled from the spec: `FIND_COMPONENT::ComputeNumComponents
(ientry, flag_positive)`. -/
def ComputeNumComponents (d ientry : ℕ) (flag_positive : Bool) : ℕ :=
  (assignComponents d (vertexFlag d ientry flag_positive)
    (List.range (2 ^ d)) (fun _ => 0) 0).2

/-- The final `component[]` labelling produced by the scan of
`ComputeNumComponents`. -/
def componentLabels (d ientry : ℕ) (flag_positive : Bool) : ℕ → ℕ :=
  (assignComponents d (vertexFlag d ientry flag_positive)
    (List.range (2 ^ d)) (fun _ => 0) 0).1

/-- The connected component of `v` (as a vertex set) in the subgraph of
the cube graph induced by the vertices satisfying `flag`; computed by
flood fill, and characterised against `Reach` in
`mem_componentOf_iff`. -/
def componentOf (d : ℕ) (flag : ℕ → Bool) (v : ℕ) : Finset ℕ :=
  (Finset.range (2 ^ d)).filter (fun w => w ∈ reachSet d flag v)

/-- The number of connected components of the set of vertices satisfying
`flag`, under cube-edge adjacency: the number of distinct component
vertex sets. -/
def numComponents (d : ℕ) (flag : ℕ → Bool) : ℕ :=
  (((Finset.range (2 ^ d)).filter (fun v => flag v = true)).image
    (componentOf d flag)).card

/-!
## The configuration-table builder (`ISODUAL_CUBE_TABLE`)
-/

/-- Does the configuration have at least one positive cube vertex? -/
def hasPositive (d ientry : ℕ) : Bool :=
  (List.range (2 ^ d)).any (fun v => ientry.testBit v)

/-- Does the configuration have at least one negative cube vertex? -/
def hasNegative (d ientry : ℕ) : Bool :=
  (List.range (2 ^ d)).any (fun v => !ientry.testBit v)

/-- The configuration consisting of exactly two diagonally opposite
positive vertices (the diagonal opposite of vertex `v` is
`v ^^^ (2^d - 1)`). -/
def is_two_opposite_ones (d ientry : ℕ) : Bool :=
  (List.range (2 ^ d)).any (fun v => ientry == 2 ^ v + 2 ^ (v ^^^ (2 ^ d - 1)))

/-- The configuration consisting of exactly two diagonally opposite
negative vertices. -/
def is_two_opposite_zeros (d ientry : ℕ) : Bool :=
  is_two_opposite_ones d (numTableEntries d - 1 - ientry)

/-- Modelled from the spec: which sign class the builder separates into
patches for a given entry.  By default the positive class is tracked
unless `separateNegative` is set; under `alwaysSeparateOpposite`, a
configuration of exactly two diagonally opposite same-sign vertices
always has that sign class separated, so that the two opposite vertices
land in distinct patches. -/
def flagSeparatePos (d : ℕ) (sepNeg sepOpp : Bool) (ientry : ℕ) : Bool :=
  if sepOpp && is_two_opposite_ones d ientry then true
  else if sepOpp && is_two_opposite_zeros d ientry then false
  else !sepNeg

/-- One entry of the dual isosurface lookup table
(`ISODUAL_TABLE::ISODUAL_TABLE_ENTRY`): the patch count, the bipolar flag
of each edge `(iv, k)`, and the incident isosurface vertex of each edge. -/
structure ISODUAL_TABLE_ENTRY where
  num_vertices : ℕ
  is_bipolar : ℕ → ℕ → Bool
  incident_isovertex : ℕ → ℕ → ℕ

/-- Modelled from the spec: the per-index work of
`ISODUAL_CUBE_TABLE::CreateTableEntries` (declared in
`src/ijkdualtable.h`, body not in the excerpt).  Per the spec: an edge is
bipolar iff its endpoints' signs differ; each connected component of the
tracked sign class becomes one patch (there are no patches when the
configuration has no bipolar edge, i.e. when one sign class is empty);
the patch incident on a bipolar edge is the one containing the edge's
endpoint of the tracked sign class.  Patch ids are the flood-fill
component ids shifted to start at `0`. -/
def createTableEntry (d : ℕ) (sepNeg sepOpp : Bool) (ientry : ℕ) :
    ISODUAL_TABLE_ENTRY :=
  let pos := flagSeparatePos d sepNeg sepOpp ientry
  { num_vertices :=
      if hasPositive d ientry && hasNegative d ientry then
        ComputeNumComponents d ientry pos
      else 0
    is_bipolar := fun iv k =>
      IsPositive ientry iv != IsPositive ientry (iv ^^^ 2 ^ k)
    incident_isovertex := fun iv k =>
      componentLabels d ientry pos
        (if IsPositive ientry iv == pos then iv else iv ^^^ 2 ^ k) - 1 }

/-- Accessor `ISODUAL_TABLE::NumIsoVertices` on the modelled table. -/
def NumIsoVertices (d : ℕ) (sepNeg sepOpp : Bool) (it : ℕ) : ℕ :=
  (createTableEntry d sepNeg sepOpp it).num_vertices

/-- Accessor `ISODUAL_TABLE::IsBipolar` on the modelled table. -/
def IsBipolar (d : ℕ) (sepNeg sepOpp : Bool) (it iv k : ℕ) : Bool :=
  (createTableEntry d sepNeg sepOpp it).is_bipolar iv k

/-- Accessor `ISODUAL_TABLE::IncidentIsoVertex` on the modelled table. -/
def IncidentIsoVertex (d : ℕ) (sepNeg sepOpp : Bool) (it iv k : ℕ) : ℕ :=
  (createTableEntry d sepNeg sepOpp it).incident_isovertex iv k

/-- Number of bipolar edges of a table entry. -/
def countBipolarEdges (d : ℕ) (sepNeg sepOpp : Bool) (it : ℕ) : ℕ :=
  (edgesList d).countP (fun e => IsBipolar d sepNeg sepOpp it e.1 e.2)

/-!
## Ambiguity (`ISODUAL_CUBE_TABLE_AMBIG`)
-/

/-- Modelled from the spec:
`FIND_COMPONENT::ComputeNumComponentsInFacet(ientry, kf, flag_positive)` —
the flood fill of `ComputeNumComponents` restricted to the vertex subset
of facet `kf` (via `SearchFacet`). -/
def ComputeNumComponentsInFacet (d ientry kf : ℕ) (flag_positive : Bool) : ℕ :=
  (assignComponents d
    (fun v => vertexFlag d ientry flag_positive v && decide (v ∈ facetVertices d kf))
    (List.range (2 ^ d)) (fun _ => 0) 0).2

/-- Modelled from the spec: `is_cube_facet_ambiguous` — facet `kf` is
ambiguous iff its vertex subset restricted to the positive sign class
forms more than one connected component. -/
def is_cube_facet_ambiguous (d ientry kf : ℕ) : Bool :=
  decide (1 < ComputeNumComponentsInFacet d ientry kf true)

/-- Modelled from the spec: `is_cube_ambiguous` — a configuration is
ambiguous iff some facet is ambiguous, or the positive vertices or the
negative vertices of the whole cube form more than one connected
component. -/
def is_cube_ambiguous (d ientry : ℕ) : Bool :=
  (List.range (NumCubeFacets d)).any (fun kf => is_cube_facet_ambiguous d ientry kf)
    || decide (1 < ComputeNumComponents d ientry true)
    || decide (1 < ComputeNumComponents d ientry false)

/-- Accessor `ISODUAL_CUBE_TABLE_AMBIG::IsAmbiguous` on the modelled
table (the `is_ambiguous[]` array is filled per entry from
`is_cube_ambiguous` by `ComputeAmbiguityInformation`). -/
def IsAmbiguous (d it : ℕ) : Bool :=
  is_cube_ambiguous d it

/-!
## Construction errors (dimension check and table allocation)
-/

/-- The construction / access error kinds of the spec. -/
inductive TABLE_ERROR where
  | DimensionError : TABLE_ERROR
  | NotBuiltError : TABLE_ERROR

/-- Modelled from the spec: `ISODUAL_TABLE::CheckDimension` (declared in
`src/ijkdualtable.h`, body not in the excerpt) — the dimension is
acceptable when the cube's vertex count `2^d` does not exceed
`max_num_vertices`. -/
def CheckDimension (d max_num_vertices : ℕ) : Bool :=
  decide (2 ^ d ≤ max_num_vertices)

/-- The parameters of a successfully built cube table. -/
structure BuiltTable where
  dimension : ℕ
  sepNeg : Bool
  sepOpp : Bool

/-- Modelled from the spec: table construction
(`ISODUAL_CUBE_TABLE::Create`) — fails with `DimensionError` when the
vertex count exceeds the supported maximum, otherwise yields the built
table. -/
def buildTable (d max_num_vertices : ℕ) (sepNeg sepOpp : Bool) :
    Except TABLE_ERROR BuiltTable :=
  if CheckDimension d max_num_vertices then
    Except.ok ⟨d, sepNeg, sepOpp⟩
  else
    Except.error TABLE_ERROR.DimensionError

/-- The allocation state after a construction attempt: `none` when the
build failed (`is_table_allocated` stays false, no partial table is
kept). -/
def tableStateAfterBuild (d max_num_vertices : ℕ) (sepNeg sepOpp : Bool) :
    Option BuiltTable :=
  (buildTable d max_num_vertices sepNeg sepOpp).toOption

/-- Modelled from the spec: an accessor (`NumIsoVertices`) guarded by the
allocation state — "calling before build fails with NotBuiltError". -/
def accessNumIsoVertices (s : Option BuiltTable) (it : ℕ) :
    Except TABLE_ERROR ℕ :=
  match s with
  | none => Except.error TABLE_ERROR.NotBuiltError
  | some t => Except.ok (NumIsoVertices t.dimension t.sepNeg t.sepOpp it)

/-!
## Theorems

### Basic facts about `compute_complement` (claims C7, C8)
-/

/-- C7: for every table index `it` in `[0, num_table_entries)`,
`Complement (Complement it) = it` — the complement operation of the table
(`ISODUAL_TABLE::Complement`, which returns
`compute_complement(it, num_table_entries)`) is an involution. -/
theorem complement_involution (it n : ℕ) (h : it < n) :
    compute_complement (compute_complement it n) n = it := by
  unfold compute_complement
  omega

theorem complement_involution_witness :
    (5 : ℕ) < 16 ∧ compute_complement (compute_complement 5 16) 16 = 5 :=
  ⟨by decide, complement_involution 5 16 (by decide)⟩

/-- C8: for every table index `it` in `[0, size)`, `compute_complement`
has a fixed point at `it` exactly when `2 * it = size - 1`; in particular
for `size = 2^V` with `V ≥ 1` the complement map has no fixed point. -/
theorem complement_fixed_point_iff (it n : ℕ) (h : it < n) :
    (compute_complement it n = it ↔ 2 * it = n - 1) ∧
      (∀ V : ℕ, 1 ≤ V → n = 2 ^ V → compute_complement it n ≠ it) := by
  constructor
  · unfold compute_complement; omega
  · intro V hV hn hfix
    unfold compute_complement at hfix
    have h2 : 2 * it = n - 1 := by omega
    have hpow : n % 2 = 0 := by
      subst hn
      have : 2 ∣ 2 ^ V := dvd_pow_self 2 (by omega : V ≠ 0)
      omega
    omega

theorem complement_fixed_point_iff_witness :
    (3 : ℕ) < 16 ∧
      ((compute_complement 3 16 = 3 ↔ 2 * 3 = 16 - 1) ∧
        (∀ V : ℕ, 1 ≤ V → 16 = 2 ^ V → compute_complement 3 16 ≠ 3)) :=
  ⟨by decide, complement_fixed_point_iff 3 16 (by decide)⟩

/-!
### Facet activity (claims C4, C10)
-/

/-- The mask test `((1 << jv) & ientry) == 0` of the source is the
negation of the bit test. -/
theorem mask_and_eq_zero (ientry jv : ℕ) :
    ((1 <<< jv) &&& ientry == 0) = !ientry.testBit jv := by
  rw [Nat.one_shiftLeft, Nat.two_pow_and]
  cases h : ientry.testBit jv
  · simp
  · have hpos : 0 < 2 ^ jv := Nat.pos_pow_of_pos jv (by omega)
    simp only [Bool.toNat_true, Nat.mul_one, Bool.not_true]
    exact beq_eq_false_iff_ne.mpr (by omega)

/-- Unfolding the zeros/ones loop of `ComputeNumCubeFacetBits` into two
list counts. -/
theorem foldl_bits_eq (ientry : ℕ) (l : List ℕ) (a b : ℕ) :
    l.foldl
        (fun p jv => if (1 <<< jv) &&& ientry == 0 then (p.1 + 1, p.2) else (p.1, p.2 + 1))
        (a, b)
      = (a + l.countP (fun jv => !ientry.testBit jv),
         b + l.countP (fun jv => ientry.testBit jv)) := by
  induction l generalizing a b with
  | nil => simp
  | cons x xs ih =>
    have hx := mask_and_eq_zero ientry x
    rw [List.foldl_cons]
    cases h : ientry.testBit x
    · have hc : ((1 <<< x) &&& ientry == 0) = true := by simp [hx, h]
      simp only [List.countP_cons, h, hc]
      rw [if_pos trivial, ih]
      simp only [Prod.mk.injEq]
      constructor <;> simp <;> omega
    · have hc : ((1 <<< x) &&& ientry == 0) = false := by simp [hx, h]
      simp only [List.countP_cons, h, hc]
      rw [if_neg (by simp), ih]
      simp only [Prod.mk.injEq]
      constructor <;> simp <;> omega

/-- The two components of `ComputeNumCubeFacetBits` are the counts of
negative and positive facet vertices. -/
theorem computeNumCubeFacetBits_eq (d ientry f : ℕ) :
    ComputeNumCubeFacetBits d ientry f
      = ((facetVertices d f).countP (fun jv => !ientry.testBit jv),
         (facetVertices d f).countP (fun jv => ientry.testBit jv)) := by
  unfold ComputeNumCubeFacetBits
  rw [foldl_bits_eq]
  simp

/-- A conditional count over `List.range` is the cardinality of the
corresponding `Finset.range` filter. -/
theorem foldl_count_eq_card (p : ℕ → Bool) (n a : ℕ) :
    (List.range n).foldl (fun cnt f => if p f then cnt + 1 else cnt) a
      = a + ((Finset.range n).filter (fun f => p f = true)).card := by
  induction n generalizing a with
  | zero => simp
  | succ m ih =>
    rw [List.range_succ, List.foldl_append, Finset.range_succ, Finset.filter_insert]
    simp only [List.foldl_cons, List.foldl_nil, ih]
    cases h : p m
    · simp [h]
    · simp only [h]
      rw [if_pos trivial, if_pos trivial, Finset.card_insert_of_not_mem (by simp)]
      omega

/-- C4: `IsCubeFacetActive(ientry, f)` holds exactly when facet `f` has
both a positive and a negative vertex, and
`ComputeNumActiveCubeFacets(ientry)` is exactly the number of such
facets. -/
theorem isCubeFacetActive_iff_active (d ientry : ℕ) :
    (∀ f, IsCubeFacetActive d ientry f = true ↔
        (∃ v ∈ facetVertices d f, IsPositive ientry v = true) ∧
          (∃ v ∈ facetVertices d f, IsPositive ientry v = false)) ∧
      ComputeNumActiveCubeFacets d ientry
        = ((Finset.range (NumCubeFacets d)).filter
            (fun f => (∃ v ∈ facetVertices d f, IsPositive ientry v = true) ∧
              (∃ v ∈ facetVertices d f, IsPositive ientry v = false))).card := by
  have hiff : ∀ f, IsCubeFacetActive d ientry f = true ↔
      (∃ v ∈ facetVertices d f, IsPositive ientry v = true) ∧
        (∃ v ∈ facetVertices d f, IsPositive ientry v = false) := by
    intro f
    unfold IsCubeFacetActive
    rw [computeNumCubeFacetBits_eq]
    simp only [IsPositive, Bool.and_eq_true, decide_eq_true_iff,
      List.countP_pos, Bool.not_eq_true']
    exact and_comm
  refine ⟨hiff, ?_⟩
  unfold ComputeNumActiveCubeFacets
  rw [foldl_count_eq_card, Nat.zero_add]
  exact congrArg Finset.card (Finset.filter_congr (fun f _ => hiff f))

/-- On table indices below `2^n`, the complement flips every one of the
first `n` sign bits. -/
theorem testBit_complement (v : ℕ) :
    ∀ (n i : ℕ), i < 2 ^ n → v < n →
      (2 ^ n - 1 - i).testBit v = !i.testBit v := by
  induction v with
  | zero =>
    intro n i hi hv
    have h2 : 2 ^ n = 2 * 2 ^ (n - 1) := by
      rw [← pow_succ']
      congr 1
      omega
    simp only [Nat.testBit_zero, ← decide_not]
    exact decide_eq_decide.mpr (by omega)
  | succ w ih =>
    intro n i hi hv
    have h2 : 2 ^ n = 2 * 2 ^ (n - 1) := by
      rw [← pow_succ']
      congr 1
      omega
    rw [Nat.testBit_succ, Nat.testBit_succ]
    have hdiv : (2 ^ n - 1 - i) / 2 = 2 ^ (n - 1) - 1 - i / 2 := by omega
    rw [hdiv]
    exact ih (n - 1) (i / 2) (by omega) (by omega)

/-- Per-facet sign-count swap under complement. -/
theorem computeNumCubeFacetBits_complement (d ientry f : ℕ)
    (h : ientry < numTableEntries d) :
    ComputeNumCubeFacetBits d (compute_complement ientry (numTableEntries d)) f
      = ((ComputeNumCubeFacetBits d ientry f).2,
         (ComputeNumCubeFacetBits d ientry f).1) := by
  rw [computeNumCubeFacetBits_eq, computeNumCubeFacetBits_eq]
  have hbit : ∀ v ∈ facetVertices d f,
      (compute_complement ientry (numTableEntries d)).testBit v
        = !ientry.testBit v := by
    intro v hv
    have hvlt : v < 2 ^ d := by
      have := List.mem_filter.mp hv
      exact List.mem_range.mp this.1
    exact testBit_complement v (2 ^ d) ientry h hvlt
  simp only [Prod.mk.injEq]
  exact ⟨List.countP_congr (fun v hv => by rw [hbit v hv]; simp),
    List.countP_congr (fun v hv => by rw [hbit v hv])⟩

/-- C10: facet activity is invariant under the complement operation, and
so is the count of active facets. -/
theorem facet_active_complement (d ientry f : ℕ)
    (h : ientry < numTableEntries d) (hf : f < NumCubeFacets d) :
    IsCubeFacetActive d (compute_complement ientry (numTableEntries d)) f
        = IsCubeFacetActive d ientry f ∧
      ComputeNumActiveCubeFacets d (compute_complement ientry (numTableEntries d))
        = ComputeNumActiveCubeFacets d ientry := by
  have hact : ∀ g, IsCubeFacetActive d (compute_complement ientry (numTableEntries d)) g
      = IsCubeFacetActive d ientry g := by
    intro g
    unfold IsCubeFacetActive
    rw [computeNumCubeFacetBits_complement d ientry g h]
    exact Bool.and_comm _ _
  refine ⟨hact f, ?_⟩
  unfold ComputeNumActiveCubeFacets
  rw [foldl_count_eq_card, foldl_count_eq_card]
  congr 1
  exact congrArg Finset.card (Finset.filter_congr (fun g _ => by rw [hact g]))

theorem facet_active_complement_witness :
    (6 : ℕ) < numTableEntries 2 ∧ (1 : ℕ) < NumCubeFacets 2 ∧
      (IsCubeFacetActive 2 (compute_complement 6 (numTableEntries 2)) 1
          = IsCubeFacetActive 2 6 1 ∧
        ComputeNumActiveCubeFacets 2 (compute_complement 6 (numTableEntries 2))
          = ComputeNumActiveCubeFacets 2 6) :=
  ⟨by decide, by decide, facet_active_complement 2 6 1 (by decide) (by decide)⟩

/-!
### Flood-fill reachability
-/

/-- Cube-edge adjacency is symmetric. -/
theorem cubeAdj_symm {d u v : ℕ} (h : cubeAdj d u v = true) :
    cubeAdj d v u = true := by
  unfold cubeAdj at h ⊢
  simp only [Bool.and_eq_true, decide_eq_true_iff, List.any_eq_true] at h ⊢
  obtain ⟨⟨hu, hv⟩, k, hk, he⟩ := h
  exact ⟨⟨hv, hu⟩, k, hk, by rwa [Nat.xor_comm]⟩

/-- Adjacent vertices are cube vertices. -/
theorem cubeAdj_lt {d u v : ℕ} (h : cubeAdj d u v = true) :
    u < 2 ^ d ∧ v < 2 ^ d := by
  unfold cubeAdj at h
  simp only [Bool.and_eq_true, decide_eq_true_iff] at h
  exact h.1

theorem subset_expand (d : ℕ) (ok : ℕ → Bool) (s : Finset ℕ) :
    s ⊆ expand d ok s :=
  Finset.subset_union_left

theorem mem_iterate_expand_self (d : ℕ) (ok : ℕ → Bool) (i k : ℕ) :
    i ∈ (expand d ok)^[k] {i} := by
  induction k with
  | zero => simp
  | succ m ih =>
    rw [Function.iterate_succ_apply']
    exact subset_expand _ _ _ ih

theorem iterate_expand_subset (d : ℕ) (ok : ℕ → Bool) (i k : ℕ) :
    (expand d ok)^[k] {i} ⊆ insert i (Finset.range (2 ^ d)) := by
  induction k with
  | zero => simp
  | succ m ih =>
    rw [Function.iterate_succ_apply']
    intro x hx
    rcases Finset.mem_union.mp hx with h1 | h2
    · exact ih h1
    · exact Finset.mem_insert_of_mem (Finset.mem_filter.mp h2).1

/-- The flood fill stabilises within `2^d` rounds. -/
theorem exists_iterate_expand_eq (d : ℕ) (ok : ℕ → Bool) (i : ℕ) :
    ∃ k ≤ 2 ^ d, (expand d ok)^[k + 1] {i} = (expand d ok)^[k] {i} := by
  by_contra hcon
  push_neg at hcon
  have hgrow : ∀ k, k ≤ 2 ^ d + 1 → k + 1 ≤ ((expand d ok)^[k] {i}).card := by
    intro k
    induction k with
    | zero => intro _; simp
    | succ m ih =>
      intro hm
      have h1 : m + 1 ≤ ((expand d ok)^[m] {i}).card := ih (by omega)
      have hne := hcon m (by omega)
      have hsub : (expand d ok)^[m] {i} ⊆ (expand d ok)^[m + 1] {i} := by
        rw [Function.iterate_succ_apply']
        exact subset_expand _ _ _
      have hlt := Finset.card_lt_card
        (Finset.ssubset_iff_subset_ne.mpr ⟨hsub, fun he => hne he.symm⟩)
      omega
  have hcard := hgrow (2 ^ d + 1) le_rfl
  have hle := Finset.card_le_card (iterate_expand_subset d ok i (2 ^ d + 1))
  have hins : (insert i (Finset.range (2 ^ d))).card ≤ 2 ^ d + 1 := by
    have := Finset.card_insert_le i (Finset.range (2 ^ d))
    rwa [Finset.card_range] at this
  omega

/-- The reach set is a fixpoint of the expansion step. -/
theorem expand_reachSet_fixed (d : ℕ) (ok : ℕ → Bool) (i : ℕ) :
    expand d ok (reachSet d ok i) = reachSet d ok i := by
  obtain ⟨k, hk, heq⟩ := exists_iterate_expand_eq d ok i
  have hfix : ∀ m, (expand d ok)^[k + m] {i} = (expand d ok)^[k] {i} := by
    intro m
    induction m with
    | zero => rfl
    | succ p ih =>
      have h2 := Function.iterate_succ_apply' (expand d ok) k ({i} : Finset ℕ)
      rw [show k + (p + 1) = (k + p) + 1 by omega, Function.iterate_succ_apply',
        ih, ← h2, heq]
  unfold reachSet
  have h1 : (expand d ok)^[2 ^ d + 1] {i} = (expand d ok)^[k] {i} := by
    have := hfix (2 ^ d + 1 - k)
    rwa [show k + (2 ^ d + 1 - k) = 2 ^ d + 1 by omega] at this
  have h2 := Function.iterate_succ_apply' (expand d ok) k ({i} : Finset ℕ)
  rw [h1, ← h2, heq]

/-- Everything collected by the flood fill is reachable. -/
theorem reach_of_mem_iterate (d : ℕ) (ok : ℕ → Bool) (i : ℕ) :
    ∀ k, ∀ v ∈ (expand d ok)^[k] {i}, Reach d ok i v := by
  intro k
  induction k with
  | zero =>
    intro v hv
    rw [Function.iterate_zero_apply, Finset.mem_singleton] at hv
    subst hv
    exact Relation.ReflTransGen.refl
  | succ m ih =>
    intro v hv
    rw [Function.iterate_succ_apply'] at hv
    rcases Finset.mem_union.mp hv with h1 | h2
    · exact ih v h1
    · obtain ⟨_, hok, u, hu, hadj⟩ := Finset.mem_filter.mp h2
      exact (ih u hu).tail ⟨hadj, hok⟩

/-- Everything reachable is collected by the flood fill. -/
theorem mem_reachSet_of_reach {d : ℕ} {ok : ℕ → Bool} {i v : ℕ}
    (h : Reach d ok i v) : v ∈ reachSet d ok i := by
  induction h with
  | refl => exact mem_iterate_expand_self d ok i _
  | @tail b c h1 h2 ih =>
    rw [← expand_reachSet_fixed d ok i]
    exact Finset.mem_union_right _ (Finset.mem_filter.mpr
      ⟨Finset.mem_range.mpr (cubeAdj_lt h2.1).2, h2.2, b, ih, h2.1⟩)

/-- The flood-fill set is exactly the set of reachable vertices. -/
theorem mem_reachSet_iff (d : ℕ) (ok : ℕ → Bool) (i v : ℕ) :
    v ∈ reachSet d ok i ↔ Reach d ok i v :=
  ⟨fun h => reach_of_mem_iterate d ok i _ v h, mem_reachSet_of_reach⟩

/-- Reachability ends at the start or at a vertex satisfying the
condition. -/
theorem reach_flagged {d : ℕ} {flag : ℕ → Bool} {i v : ℕ}
    (h : Reach d flag i v) : i = v ∨ flag v = true := by
  induction h with
  | refl => exact Or.inl rfl
  | tail h1 h2 _ => exact Or.inr h2.2

/-- Reachability between vertices of the flagged set is symmetric. -/
theorem reach_symm {d : ℕ} {flag : ℕ → Bool} {u v : ℕ}
    (hu : flag u = true) (h : Reach d flag u v) : Reach d flag v u := by
  induction h with
  | refl => exact Relation.ReflTransGen.refl
  | @tail b c h1 h2 ih =>
    have hb : flag b = true := by
      rcases reach_flagged h1 with he | hf
      · rwa [← he]
      · exact hf
    exact Relation.ReflTransGen.head ⟨cubeAdj_symm h2.1, hb⟩ ih

/-!
### Correctness of the component scan (claims C5, C2)
-/

/-- Membership in a flood-fill component, in terms of reachability. -/
theorem mem_componentOf_iff (d : ℕ) (flag : ℕ → Bool) (a w : ℕ) :
    w ∈ componentOf d flag a ↔ w < 2 ^ d ∧ Reach d flag a w := by
  unfold componentOf
  rw [Finset.mem_filter, Finset.mem_range, mem_reachSet_iff]

/-- Reachable flagged vertices have the same component. -/
theorem componentOf_eq_of_reach {d : ℕ} {flag : ℕ → Bool} {u v : ℕ}
    (hu : flag u = true) (h : Reach d flag u v) :
    componentOf d flag u = componentOf d flag v := by
  ext w
  rw [mem_componentOf_iff, mem_componentOf_iff]
  constructor
  · rintro ⟨hw, hR⟩
    exact ⟨hw, (reach_symm hu h).trans hR⟩
  · rintro ⟨hw, hR⟩
    exact ⟨hw, h.trans hR⟩

/-- `(List.range n).toFinset` is `Finset.range n`. -/
theorem toFinset_list_range (n : ℕ) :
    (List.range n).toFinset = Finset.range n := by
  ext x
  simp

/-- The main invariant of the component-assignment scan: starting from a
state in which a vertex is labelled iff it is flagged and reachable from
a flagged already-processed vertex, and in which the id counter equals
the number of distinct components met so far, processing the remaining
vertices preserves this, and every label stays at most the counter. -/
theorem assignComponents_invariant (d : ℕ) (flag : ℕ → Bool)
    (hflag : ∀ v, flag v = true → v < 2 ^ d) :
    ∀ (l processed : List ℕ) (comp : ℕ → ℕ) (icomp : ℕ),
      (∀ v, comp v ≠ 0 ↔
        flag v = true ∧ ∃ u ∈ processed, flag u = true ∧ Reach d flag u v) →
      icomp = ((processed.toFinset.filter (fun v => flag v = true)).image
        (componentOf d flag)).card →
      (∀ v, comp v ≤ icomp) →
      (∀ v, (assignComponents d flag l comp icomp).1 v ≠ 0 ↔
          flag v = true ∧ ∃ u ∈ processed ++ l, flag u = true ∧ Reach d flag u v) ∧
        (assignComponents d flag l comp icomp).2
          = (((processed ++ l).toFinset.filter (fun v => flag v = true)).image
              (componentOf d flag)).card ∧
        (∀ v, (assignComponents d flag l comp icomp).1 v
          ≤ (assignComponents d flag l comp icomp).2) := by
  intro l
  induction l with
  | nil =>
    intro processed comp icomp hInv hCount hLe
    simpa [assignComponents] using ⟨hInv, hCount, hLe⟩
  | cons v rest ih =>
    intro processed comp icomp hInv hCount hLe
    rw [List.append_cons]
    by_cases hcond : (flag v && (comp v == 0)) = true
    · -- v is flagged and unvisited: a new search starts at v
      have hv : flag v = true := by
        have h1 := hcond
        simp only [Bool.and_eq_true] at h1
        exact h1.1
      have hc0 : comp v = 0 := by
        have h1 := hcond
        simp only [Bool.and_eq_true, beq_iff_eq] at h1
        exact h1.2
      have hstep : assignComponents d flag (v :: rest) comp icomp
          = assignComponents d flag rest
              (Search d flag comp v (icomp + 1)) (icomp + 1) := by
        simp [assignComponents, hcond]
      -- the flood fill from v, although restricted to unvisited vertices,
      -- covers exactly the flagged-reachability class of v
      have hreach : ∀ w,
          w ∈ reachSet d (fun u => flag u && (comp u == 0)) v ↔
            Reach d flag v w := by
        intro w
        rw [mem_reachSet_iff]
        constructor
        · intro hr
          refine Relation.ReflTransGen.mono ?_ hr
          rintro a b ⟨hab, hb⟩
          simp only [Bool.and_eq_true] at hb
          exact ⟨hab, hb.1⟩
        · intro hfw
          induction hfw with
          | refl => exact Relation.ReflTransGen.refl
          | @tail b c h1 h2 ihr =>
            have hcc : comp c = 0 := by
              by_contra hne
              obtain ⟨_, p, hpmem, hfp, hRpc⟩ := (hInv c).mp hne
              have hRvc : Reach d flag v c := h1.tail h2
              have hRcv : Reach d flag c v := reach_symm hv hRvc
              have hbad : comp v ≠ 0 :=
                (hInv v).mpr ⟨hv, p, hpmem, hfp, hRpc.trans hRcv⟩
              exact hbad hc0
            exact ihr.tail ⟨h2.1, by simp [h2.2, hcc]⟩
      have hInv' : ∀ w, Search d flag comp v (icomp + 1) w ≠ 0 ↔
          flag w = true ∧
            ∃ u ∈ processed ++ [v], flag u = true ∧ Reach d flag u w := by
        intro w
        unfold Search
        by_cases hw : w ∈ reachSet d (fun u => flag u && (comp u == 0)) v
        · rw [if_pos hw]
          have hRvw : Reach d flag v w := (hreach w).mp hw
          have hfw : flag w = true := by
            rcases reach_flagged hRvw with he | hf
            · rwa [← he]
            · exact hf
          constructor
          · intro _
            exact ⟨hfw, v, by simp, hv, hRvw⟩
          · intro _
            omega
        · rw [if_neg hw, hInv w]
          constructor
          · rintro ⟨hfw, u, hu, hfu, hR⟩
            exact ⟨hfw, u, List.mem_append.mpr (Or.inl hu), hfu, hR⟩
          · rintro ⟨hfw, u, hu', hfu, hR⟩
            rcases List.mem_append.mp hu' with hu | hu
            · exact ⟨hfw, u, hu, hfu, hR⟩
            · have huv : u = v := by simpa using hu
              subst huv
              exact absurd ((hreach w).mpr hR) hw
      have hCount' : icomp + 1 =
          (((processed ++ [v]).toFinset.filter (fun x => flag x = true)).image
            (componentOf d flag)).card := by
        rw [List.toFinset_append]
        simp only [List.toFinset_cons, List.toFinset_nil, insert_emptyc_eq]
        rw [show processed.toFinset ∪ {v} = insert v processed.toFinset from by
          rw [Finset.union_comm, ← Finset.insert_eq]]
        rw [Finset.filter_insert, if_pos hv, Finset.image_insert]
        have hnot : componentOf d flag v ∉
            (processed.toFinset.filter (fun x => flag x = true)).image
              (componentOf d flag) := by
          intro hmem
          obtain ⟨p, hp, heq⟩ := Finset.mem_image.mp hmem
          obtain ⟨hpmem, hfp⟩ := Finset.mem_filter.mp hp
          have hvv : v ∈ componentOf d flag v :=
            (mem_componentOf_iff d flag v v).mpr
              ⟨hflag v hv, Relation.ReflTransGen.refl⟩
          rw [← heq] at hvv
          obtain ⟨_, hRpv⟩ := (mem_componentOf_iff d flag p v).mp hvv
          exact (hInv v).mpr ⟨hv, p, List.mem_toFinset.mp hpmem, hfp, hRpv⟩ hc0
        rw [Finset.card_insert_of_not_mem hnot, ← hCount]
      have hLe' : ∀ w, Search d flag comp v (icomp + 1) w ≤ icomp + 1 := by
        intro w
        unfold Search
        by_cases hw : w ∈ reachSet d (fun u => flag u && (comp u == 0)) v
        · rw [if_pos hw]
        · rw [if_neg hw]
          exact le_trans (hLe w) (by omega)
      rw [hstep]
      exact ih (processed ++ [v]) (Search d flag comp v (icomp + 1))
        (icomp + 1) hInv' hCount' hLe'
    · -- v is unflagged or already labelled: the state is unchanged
      have hstep : assignComponents d flag (v :: rest) comp icomp
          = assignComponents d flag rest comp icomp := by
        simp [assignComponents, hcond]
      by_cases hfv : flag v = true
      · have hcv : comp v ≠ 0 := by
          intro h0
          exact hcond (by simp [hfv, h0])
        obtain ⟨_, p, hpmem, hfp, hRpv⟩ := (hInv v).mp hcv
        have hInv' : ∀ w, comp w ≠ 0 ↔
            flag w = true ∧
              ∃ u ∈ processed ++ [v], flag u = true ∧ Reach d flag u w := by
          intro w
          rw [hInv w]
          constructor
          · rintro ⟨hfw, u, hu, hfu, hR⟩
            exact ⟨hfw, u, List.mem_append.mpr (Or.inl hu), hfu, hR⟩
          · rintro ⟨hfw, u, hu', hfu, hR⟩
            rcases List.mem_append.mp hu' with hu | hu
            · exact ⟨hfw, u, hu, hfu, hR⟩
            · have huv : u = v := by simpa using hu
              subst huv
              exact ⟨hfw, p, hpmem, hfp, hRpv.trans hR⟩
        have hCount' : icomp =
            (((processed ++ [v]).toFinset.filter (fun x => flag x = true)).image
              (componentOf d flag)).card := by
          rw [List.toFinset_append]
          simp only [List.toFinset_cons, List.toFinset_nil, insert_emptyc_eq]
          rw [show processed.toFinset ∪ {v} = insert v processed.toFinset from by
            rw [Finset.union_comm, ← Finset.insert_eq]]
          rw [Finset.filter_insert, if_pos hfv, Finset.image_insert]
          have hmem : componentOf d flag v ∈
              (processed.toFinset.filter (fun x => flag x = true)).image
                (componentOf d flag) :=
            Finset.mem_image.mpr ⟨p,
              Finset.mem_filter.mpr ⟨List.mem_toFinset.mpr hpmem, hfp⟩,
              componentOf_eq_of_reach hfp hRpv⟩
          rw [Finset.insert_eq_self.mpr hmem]
          exact hCount
        rw [hstep]
        exact ih (processed ++ [v]) comp icomp hInv' hCount' hLe
      · have hInv' : ∀ w, comp w ≠ 0 ↔
            flag w = true ∧
              ∃ u ∈ processed ++ [v], flag u = true ∧ Reach d flag u w := by
          intro w
          rw [hInv w]
          constructor
          · rintro ⟨hfw, u, hu, hfu, hR⟩
            exact ⟨hfw, u, List.mem_append.mpr (Or.inl hu), hfu, hR⟩
          · rintro ⟨hfw, u, hu', hfu, hR⟩
            rcases List.mem_append.mp hu' with hu | hu
            · exact ⟨hfw, u, hu, hfu, hR⟩
            · have huv : u = v := by simpa using hu
              subst huv
              exact absurd hfu hfv
        have hCount' : icomp =
            (((processed ++ [v]).toFinset.filter (fun x => flag x = true)).image
              (componentOf d flag)).card := by
          rw [List.toFinset_append]
          simp only [List.toFinset_cons, List.toFinset_nil, insert_emptyc_eq]
          rw [show processed.toFinset ∪ {v} = insert v processed.toFinset from by
            rw [Finset.union_comm, ← Finset.insert_eq]]
          rw [Finset.filter_insert, if_neg hfv]
          exact hCount
        rw [hstep]
        exact ih (processed ++ [v]) comp icomp hInv' hCount' hLe

/-- Flagged vertices are cube vertices. -/
theorem vertexFlag_lt {d ientry : ℕ} {pos : Bool} {v : ℕ}
    (h : vertexFlag d ientry pos v = true) : v < 2 ^ d := by
  unfold vertexFlag at h
  simp only [Bool.and_eq_true, decide_eq_true_iff] at h
  exact h.1

/-- C5: `ComputeNumComponents(ientry, flag_positive)` returns the number
of connected components of the set of positive (resp. negative) vertices
of the configuration under cube-edge adjacency; `componentOf` here is
exactly reachability through same-sign vertices. -/
theorem computeNumComponents_counts_components (d ientry : ℕ)
    (flag_positive : Bool) :
    ComputeNumComponents d ientry flag_positive
        = numComponents d (vertexFlag d ientry flag_positive) ∧
      (∀ v w : ℕ, w ∈ componentOf d (vertexFlag d ientry flag_positive) v ↔
        w < 2 ^ d ∧ Reach d (vertexFlag d ientry flag_positive) v w) := by
  refine ⟨?_, fun v w => mem_componentOf_iff d _ v w⟩
  have h := assignComponents_invariant d (vertexFlag d ientry flag_positive)
    (fun v hv => vertexFlag_lt hv) (List.range (2 ^ d)) [] (fun _ => 0) 0
    (by simp) (by simp) (by simp)
  obtain ⟨_, hcount, _⟩ := h
  unfold ComputeNumComponents numComponents
  rw [hcount]
  simp [toFinset_list_range]

/-- Every flagged vertex ends the scan with a label in `[1, count]`. -/
theorem componentLabels_bounds (d ientry : ℕ) (pos : Bool) (v : ℕ)
    (hv : vertexFlag d ientry pos v = true) :
    1 ≤ componentLabels d ientry pos v ∧
      componentLabels d ientry pos v ≤ ComputeNumComponents d ientry pos := by
  have h := assignComponents_invariant d (vertexFlag d ientry pos)
    (fun w hw => vertexFlag_lt hw) (List.range (2 ^ d)) [] (fun _ => 0) 0
    (by simp) (by simp) (by simp)
  obtain ⟨hchar, _, hle⟩ := h
  constructor
  · have hne : componentLabels d ientry pos v ≠ 0 := by
      unfold componentLabels
      rw [hchar v]
      exact ⟨hv, v, by simpa using vertexFlag_lt hv, hv,
        Relation.ReflTransGen.refl⟩
    omega
  · have h2 := hle v
    simpa [componentLabels, ComputeNumComponents] using h2

/-!
### The table entries (claims C1, C2, C6)
-/

/-- C1: the stored bipolar flag of an edge equals the endpoint sign test:
`IsBipolar(it, e)` iff `IsPositive(it, endpoint0(e))` differs from
`IsPositive(it, endpoint1(e))`, for every table build. -/
theorem isBipolar_iff_sign_differs (d : ℕ) (sepNeg sepOpp : Bool) (it iv k : ℕ)
    (he : isEdge d iv k) :
    IsBipolar d sepNeg sepOpp it iv k = true ↔
      IsPositive it iv ≠ IsPositive it (edgeEndpoint1 iv k) := by
  simp only [IsBipolar, createTableEntry, edgeEndpoint1]
  exact bne_iff_ne

theorem isBipolar_iff_sign_differs_witness :
    isEdge 2 0 1 ∧
      (IsBipolar 2 false false 5 0 1 = true ↔
        IsPositive 5 0 ≠ IsPositive 5 (edgeEndpoint1 0 1)) :=
  ⟨⟨by decide, by decide, by decide⟩,
    isBipolar_iff_sign_differs 2 false false 5 0 1
      ⟨by decide, by decide, by decide⟩⟩

/-- C2: for every bipolar edge, the stored incident isosurface-vertex
index is in range `[0, NumIsoVertices)`, for every dimension and every
choice of policy flags. -/
theorem incidentIsoVertex_in_range (d : ℕ) (sepNeg sepOpp : Bool) (it iv k : ℕ)
    (he : isEdge d iv k) (hbp : IsBipolar d sepNeg sepOpp it iv k = true) :
    0 ≤ IncidentIsoVertex d sepNeg sepOpp it iv k ∧
      IncidentIsoVertex d sepNeg sepOpp it iv k
        < NumIsoVertices d sepNeg sepOpp it := by
  obtain ⟨hiv, hk, _⟩ := he
  have hxk : 2 ^ k < 2 ^ d := Nat.pow_lt_pow_right (by omega) hk
  have hx : iv ^^^ 2 ^ k < 2 ^ d := Nat.xor_lt_two_pow hiv hxk
  simp only [IsBipolar, createTableEntry] at hbp
  have hne : IsPositive it iv ≠ IsPositive it (iv ^^^ 2 ^ k) := bne_iff_ne.mp hbp
  -- both sign classes are inhabited
  have hcond : (hasPositive d it && hasNegative d it) = true := by
    simp only [Bool.and_eq_true, hasPositive, hasNegative, List.any_eq_true,
      List.mem_range]
    constructor
    · cases hb : IsPositive it iv
      · refine ⟨iv ^^^ 2 ^ k, hx, ?_⟩
        have : IsPositive it (iv ^^^ 2 ^ k) = true := by
          cases hb2 : IsPositive it (iv ^^^ 2 ^ k)
          · rw [hb, hb2] at hne; exact absurd rfl hne
          · rfl
        exact this
      · exact ⟨iv, hiv, hb⟩
    · cases hb : IsPositive it iv
      · exact ⟨iv, hiv, by simp only [IsPositive] at hb; simp [hb]⟩
      · refine ⟨iv ^^^ 2 ^ k, hx, ?_⟩
        have hb2 : IsPositive it (iv ^^^ 2 ^ k) = false := by
          cases hb2 : IsPositive it (iv ^^^ 2 ^ k)
          · rfl
          · rw [hb, hb2] at hne; exact absurd rfl hne
        simp only [IsPositive] at hb2
        simp [hb2]
  -- the tracked endpoint is flagged in the tracked sign class
  have htracked : vertexFlag d it (flagSeparatePos d sepNeg sepOpp it)
      (if IsPositive it iv == flagSeparatePos d sepNeg sepOpp it then iv
       else iv ^^^ 2 ^ k) = true := by
    by_cases h1 : IsPositive it iv = flagSeparatePos d sepNeg sepOpp it
    · rw [if_pos (by simp [h1])]
      unfold vertexFlag
      simp only [IsPositive] at h1
      simp [hiv, h1]
    · rw [if_neg (by simpa using h1)]
      have h2 : IsPositive it (iv ^^^ 2 ^ k)
          = flagSeparatePos d sepNeg sepOpp it := by
        cases hb : IsPositive it iv <;>
          cases hb2 : IsPositive it (iv ^^^ 2 ^ k) <;>
          cases hp : flagSeparatePos d sepNeg sepOpp it <;> simp_all
      unfold vertexFlag
      simp only [IsPositive] at h2
      simp [hx, h2]
  have hbounds := componentLabels_bounds d it
    (flagSeparatePos d sepNeg sepOpp it) _ htracked
  refine ⟨Nat.zero_le _, ?_⟩
  simp only [IncidentIsoVertex, NumIsoVertices, createTableEntry, hcond, if_true]
  omega

theorem incidentIsoVertex_in_range_witness :
    (isEdge 2 0 0 ∧ IsBipolar 2 false false 5 0 0 = true) ∧
      (0 ≤ IncidentIsoVertex 2 false false 5 0 0 ∧
        IncidentIsoVertex 2 false false 5 0 0 < NumIsoVertices 2 false false 5) :=
  ⟨⟨⟨by decide, by decide, by decide⟩, by decide⟩,
    incidentIsoVertex_in_range 2 false false 5 0 0
      ⟨by decide, by decide, by decide⟩ (by decide)⟩

/-- C6: the all-outside configuration (index 0) and the all-inside
configuration (index `2^V - 1`) have no isosurface vertices and no
bipolar edges, for every dimension and policy flags. -/
theorem extreme_configs_empty (d : ℕ) (sepNeg sepOpp : Bool) (iv k : ℕ)
    (he : isEdge d iv k) :
    NumIsoVertices d sepNeg sepOpp 0 = 0 ∧
      NumIsoVertices d sepNeg sepOpp (numTableEntries d - 1) = 0 ∧
      IsBipolar d sepNeg sepOpp 0 iv k = false ∧
      IsBipolar d sepNeg sepOpp (numTableEntries d - 1) iv k = false := by
  obtain ⟨hiv, hk, _⟩ := he
  have hxk : 2 ^ k < 2 ^ d := Nat.pow_lt_pow_right (by omega) hk
  have hx : iv ^^^ 2 ^ k < 2 ^ d := Nat.xor_lt_two_pow hiv hxk
  refine ⟨?_, ?_, ?_, ?_⟩
  · have h0 : hasPositive d 0 = false := by
      simp [hasPositive, Nat.zero_testBit]
    simp [NumIsoVertices, createTableEntry, h0]
  · have h1 : hasNegative d (numTableEntries d - 1) = false := by
      simp only [hasNegative, numTableEntries, List.any_eq_false, List.mem_range]
      intro v hv
      simp [Nat.testBit_two_pow_sub_one, hv]
    simp [NumIsoVertices, createTableEntry, h1]
  · simp [IsBipolar, createTableEntry, IsPositive, Nat.zero_testBit]
  · simp [IsBipolar, createTableEntry, IsPositive, numTableEntries,
      Nat.testBit_two_pow_sub_one, hiv, hx]

theorem extreme_configs_empty_witness :
    isEdge 2 0 1 ∧
      (NumIsoVertices 2 true false 0 = 0 ∧
        NumIsoVertices 2 true false (numTableEntries 2 - 1) = 0 ∧
        IsBipolar 2 true false 0 0 1 = false ∧
        IsBipolar 2 true false (numTableEntries 2 - 1) 0 1 = false) :=
  ⟨⟨by decide, by decide, by decide⟩,
    extreme_configs_empty 2 true false 0 1 ⟨by decide, by decide, by decide⟩⟩

/-!
### 2-dimensional ambiguity classification (claim C3)
-/

/-- In the cube model, square corners 0 and 2 differ only in coordinate
bit 1, so they are adjacent (not diagonally opposite); the configuration
with positive vertices exactly at corners 0 and 2 (table index 5) is NOT
classified ambiguous. -/
theorem corners_0_2_not_ambiguous :
    IsPositive 5 0 = true ∧ IsPositive 5 1 = false ∧ IsPositive 5 2 = true ∧
      IsPositive 5 3 = false ∧ cubeAdj 2 0 2 = true ∧ IsAmbiguous 2 5 = false := by
  decide

/-- C3 (amended): in the 2-dimensional cube the diagonally opposite
corner pairs are {0, 3} and {1, 2}; the configuration with positive
vertices at the two diagonally opposite corners 0 and 3 (table index 9)
is classified ambiguous, and every configuration with exactly one
positive corner is not ambiguous, has exactly one isosurface vertex and
exactly two bipolar edges, for every choice of policy flags. -/
theorem two_d_ambiguity_classification :
    (IsAmbiguous 2 9 = true ∧ cubeAdj 2 0 3 = false) ∧
      (∀ sepNeg sepOpp : Bool,
        (IsAmbiguous 2 1 = false ∧ NumIsoVertices 2 sepNeg sepOpp 1 = 1 ∧
          countBipolarEdges 2 sepNeg sepOpp 1 = 2) ∧
        (IsAmbiguous 2 2 = false ∧ NumIsoVertices 2 sepNeg sepOpp 2 = 1 ∧
          countBipolarEdges 2 sepNeg sepOpp 2 = 2) ∧
        (IsAmbiguous 2 4 = false ∧ NumIsoVertices 2 sepNeg sepOpp 4 = 1 ∧
          countBipolarEdges 2 sepNeg sepOpp 4 = 2) ∧
        (IsAmbiguous 2 8 = false ∧ NumIsoVertices 2 sepNeg sepOpp 8 = 1 ∧
          countBipolarEdges 2 sepNeg sepOpp 8 = 2)) := by
  decide

/-!
### Construction failure (claim C9)
-/

/-- C9: building a table for a dimension whose cube vertex count exceeds
`max_num_vertices` fails with `DimensionError`; after the failure no
table is allocated and the accessors fail with `NotBuiltError` instead of
returning data. -/
theorem build_dimension_error (d maxv it : ℕ) (sepNeg sepOpp : Bool)
    (h : maxv < 2 ^ d) :
    buildTable d maxv sepNeg sepOpp = Except.error TABLE_ERROR.DimensionError ∧
      tableStateAfterBuild d maxv sepNeg sepOpp = none ∧
      accessNumIsoVertices (tableStateAfterBuild d maxv sepNeg sepOpp) it
        = Except.error TABLE_ERROR.NotBuiltError := by
  have hc : CheckDimension d maxv = false := by
    simp only [CheckDimension, decide_eq_false_iff_not, not_le]
    omega
  refine ⟨?_, ?_, ?_⟩ <;>
    simp [buildTable, tableStateAfterBuild, accessNumIsoVertices, hc,
      Except.toOption]

theorem build_dimension_error_witness :
    20 < 2 ^ 5 ∧
      (buildTable 5 20 false false = Except.error TABLE_ERROR.DimensionError ∧
        tableStateAfterBuild 5 20 false false = none ∧
        accessNumIsoVertices (tableStateAfterBuild 5 20 false false) 0
          = Except.error TABLE_ERROR.NotBuiltError) :=
  ⟨by decide, build_dimension_error 5 20 0 false false (by decide)⟩

end IJKDUALTABLE
